import Mathlib

/-
Verification of the obsidian-pandoc HTML normalization pipeline.

This development shallowly embeds the renderer (renderer.ts, the revision
with recursive embed expansion and cycle detection), the Pandoc process
wrapper (pandoc.ts) and the settings record (global.ts) of the
obsidian-pandoc plugin, together with a model of the Node path library
(posix flavour) that the renderer uses, and proves the behavioural claims
of the specification against these definitions.

JavaScript strings are modelled as lists of characters (`Str`), DOM
fragments as lists of elements (`Elem`), the file system as an association
list from absolute paths to documents, and host renders plus asynchronous
reads are modelled as finite data threaded into the functions.
-/

namespace ObsidianPandoc

/-- JavaScript strings are modelled as lists of characters. -/
abbrev Str := List Char

/-- Model of JavaScript `String.prototype.startsWith`. -/
def strStartsWith : Str → Str → Bool
  | _, [] => true
  | [], _ :: _ => false
  | a :: as, b :: bs => a == b && strStartsWith as bs

/-- Whitespace recognised by the model of `String.prototype.trim`
(space, newline, tab, carriage return: the characters appearing in the
inputs the plugin handles). -/
def wsChar (c : Char) : Bool := c == ' ' || c == '\n' || c == '\t' || c == '\r'

/-- Model of JavaScript `String.prototype.trim`. -/
def trimStr (s : Str) : Str :=
  ((s.dropWhile wsChar).reverse.dropWhile wsChar).reverse

/-- Model of `String.prototype.indexOf` for a single character,
returning `none` for the JavaScript result -1. -/
def idxOfChar (c : Char) : Str → Option Nat
  | [] => none
  | a :: as => if a == c then some 0 else (idxOfChar c as).map (· + 1)

/-- Model of `String.prototype.indexOf` for a substring,
returning `none` for the JavaScript result -1. -/
def idxOfSubstr (needle : Str) : Str → Option Nat
  | [] => if needle = [] then some 0 else none
  | a :: as => if strStartsWith (a :: as) needle then some 0
               else (idxOfSubstr needle as).map (· + 1)

/-- Whether a string contains a given substring (`indexOf(x) !== -1`). -/
def containsSubstr (hay needle : Str) : Bool := (idxOfSubstr needle hay).isSome

/- ///////////////////////////////////////////////////////////////////
Model of the Node `path` library (posix flavour), the external
collaborator used by renderer.ts for all path manipulation. Trailing
slashes (which never occur in the paths the plugin builds) are not
given Node's special treatment.
/////////////////////////////////////////////////////////////////// -/

/-- Splits a string at every occurrence of a character; always returns a
non-empty list of (possibly empty) segments. -/
def splitOnChar (c : Char) : Str → List Str
  | [] => [[]]
  | a :: as =>
    match splitOnChar c as with
    | [] => [[]]
    | s :: ss => if a == c then [] :: s :: ss else (a :: s) :: ss

/-- Joins path segments with the separator. -/
def joinSegs : List Str → Str
  | [] => []
  | [s] => s
  | s :: rest => s ++ '/' :: joinSegs rest

/-- How a `..` segment transforms the accumulated output segments:
above the root it is dropped for absolute paths and kept for relative
ones, atop another kept `..` it stacks, and otherwise it pops the last
output segment. -/
def popSeg (abs : Bool) (s : Str) : List Str → List Str
  | [] => if abs then [] else [s]
  | t :: acc' => if t = ['.', '.'] then s :: t :: acc' else acc'

/-- Core of `path.posix.normalize`: processes segments left to right,
dropping empty and `.` segments and resolving `..` via `popSeg`. The
accumulator holds the output segments in reverse order. -/
def normAcc (abs : Bool) : List Str → List Str → List Str
  | acc, [] => acc
  | acc, s :: rest =>
    if s = [] ∨ s = ['.'] then normAcc abs acc rest
    else if s = ['.', '.'] then normAcc abs (popSeg abs s acc) rest
    else normAcc abs (s :: acc) rest

/-- Model of `path.posix.normalize` (without Node's preservation of a
trailing separator, which the plugin never produces). -/
def normalizePath (s : Str) : Str :=
  if s = [] then ['.']
  else if s.head? = some '/' then
    '/' :: joinSegs ((normAcc true [] (splitOnChar '/' s)).reverse)
  else if joinSegs ((normAcc false [] (splitOnChar '/' s)).reverse) = [] then ['.']
  else joinSegs ((normAcc false [] (splitOnChar '/' s)).reverse)

/-- Model of `path.posix.join` over a list of arguments: empty arguments
are dropped, the rest are joined with a separator and normalized. -/
def pjoinList (parts : List Str) : Str :=
  if parts.filter (· ≠ []) = [] then ['.']
  else normalizePath (joinSegs (parts.filter (· ≠ [])))

/-- Model of the two-argument `path.posix.join`. -/
def pjoin (a b : Str) : Str := pjoinList [a, b]

/-- The base-name characters of a path, reversed: the trailing segment
after stripping trailing separators. -/
def baseRev (s : Str) : Str :=
  (s.reverse.dropWhile (fun c => c == '/')).takeWhile (fun c => c != '/')

/-- Model of `path.posix.basename` (one argument). -/
def basename (s : Str) : Str :=
  if s ≠ [] ∧ baseRev s = [] then ['/'] else (baseRev s).reverse

/-- Model of `path.posix.dirname`. -/
def dirname (s : Str) : Str :=
  if (s.reverse.dropWhile (fun c => c != '/')).reverse = [] then ['.']
  else if (s.reverse.dropWhile (fun c => c != '/')).reverse = ['/'] then ['/']
  else ((s.reverse.dropWhile (fun c => c != '/')).reverse).dropLast

/-- The characters of the base name after its last dot, reversed back to
source order. -/
def afterDot (b : Str) : Str :=
  (b.reverse.takeWhile (fun c => c != '.')).reverse

/-- Model of `path.posix.extname`. -/
def extname (s : Str) : Str :=
  if (afterDot (basename s)).length = (basename s).length then []
  else if (basename s).all (fun c => c == '.') then []
  else if (afterDot (basename s)).length + 1 = (basename s).length then []
  else '.' :: afterDot (basename s)

/-- Model of the two-argument `path.posix.basename(p, ext)`, which strips
a trailing `ext` unless it is the whole base name. -/
def basenameExt (p ext : Str) : Str :=
  if ext ≠ [] ∧ ext.isSuffixOf (basename p) ∧ basename p ≠ ext then
    (basename p).take ((basename p).length - ext.length)
  else basename p

/- ///////////////////////////////////////////////////////////////////
Settings (global.ts) and the rendering environment.
/////////////////////////////////////////////////////////////////// -/

/-- The injectAppCSS option of global.ts: one of the string literals
current, none, light, dark. -/
inductive InjectMode where
  | current | none | light | dark
deriving DecidableEq

/-- The exportFrom option of global.ts: html or md. -/
inductive ExportFrom where
  | html | md
deriving DecidableEq

/-- The linkStrippingBehaviour option of global.ts: one of the string
literals strip, text, link. -/
inductive LinkMode where
  | strip | text | link
deriving DecidableEq

/-- The PandocPluginSettings interface of global.ts (the configuration
snapshot read by the renderer). -/
structure PandocPluginSettings where
  showCLICommands : Bool
  addExtensionsToInternalLinks : Str
  injectAppCSS : InjectMode
  injectThemeCSS : Bool
  customCSSFile : Option Str
  displayYAMLFrontmatter : Bool
  linkStrippingBehaviour : LinkMode
  highDPIDiagrams : Bool
  pandoc : Option Str
  pdflatex : Option Str
  outputFolder : Option Str
  extraArguments : Str
  exportFrom : ExportFrom
deriving DecidableEq

/-- The DEFAULT_SETTINGS constant of global.ts. -/
def DEFAULT_SETTINGS : PandocPluginSettings where
  showCLICommands := false
  addExtensionsToInternalLinks := "html".data
  injectAppCSS := .light
  injectThemeCSS := false
  customCSSFile := none
  displayYAMLFrontmatter := false
  linkStrippingBehaviour := .text
  highDPIDiagrams := true
  pandoc := none
  pdflatex := none
  outputFolder := none
  extraArguments := []
  exportFrom := .html

/-- The parse of the .obsidian/config file (getAppConfig): the two fields
the renderer reads. -/
structure AppConfig where
  theme : Str
  cssTheme : Str
deriving DecidableEq

/-- Read-only environment for one render: the file system (readFile,
where `none` models a read failure), the style elements currently in the
live document, and the parsed app config (`none` models a failed read or
parse of .obsidian/config). -/
structure RenderEnv where
  fsRead : Str → Option Str
  docStyles : List Str
  appConfig : Option AppConfig

/- ///////////////////////////////////////////////////////////////////
Style modules. The styles/app-css and styles/mathjax-css modules are
imported by renderer.ts but are not part of the sources; their contents
never influence control flow, only the text concatenated into style
blocks.
/////////////////////////////////////////////////////////////////// -/

/-- Modelled from the spec: the variables export of the styles/app-css
module (missing from the sources), a fixed set of design-token variables
(colors, fonts) from a light or dark built-in palette. -/
def appCSSVariables (light : Bool) : Str :=
  if light then ":root light-design-token-variables".data
  else ":root dark-design-token-variables".data

/-- Modelled from the spec: the default export of the styles/app-css
module (missing from the sources), a small subset of app CSS for a light
or dark palette. -/
def appCSS (light : Bool) : Str :=
  if light then "app-css-light-rules".data else "app-css-dark-rules".data

/-- Modelled from the spec: the styles/mathjax-css module (missing from
the sources), a fixed font-face stylesheet for math-rendering fonts. -/
def mathJaxFontCSS : Str := "mathjax-font-face-css".data

/- ///////////////////////////////////////////////////////////////////
Metadata extraction (renderer.ts getYAMLMetadata) and the model of the
yaml library it calls.
/////////////////////////////////////////////////////////////////// -/

/-- Metadata is an association list of string keys and values, the model
of the object YAML.parse returns for a simple mapping. -/
abbrev Metadata := List (Str × Str)

/-- Looks a key up in a metadata mapping (JavaScript property read). -/
def lookupMeta (m : Metadata) (k : Str) : Option Str :=
  (m.find? (fun p => p.1 = k)).map (·.2)

/-- Model of JavaScript `m.title ??= v`: adds the key only if absent. -/
def setIfAbsent (m : Metadata) (k v : Str) : Metadata :=
  match lookupMeta m k with
  | some _ => m
  | none => m ++ [(k, v)]

/-- The JavaScript value YAML.parse returns: null for empty input, a
plain scalar string, or a mapping object. -/
inductive YamlValue where
  | null
  | scalar (v : Str)
  | map (m : Metadata)
deriving DecidableEq

/-- Parses one frontmatter line of the form `key: value` (YAML trims the
whitespace around both the key and the value of a simple pair). -/
def yamlLine (l : Str) : Option (Str × Str) :=
  match idxOfChar ':' l with
  | none => none
  | some i => some (trimStr (l.take i), trimStr (l.drop (i + 1)))

/-- Whether the text opens a flow collection it never closes, the
syntax-error shape exercised here (YAML.parse throws on it). -/
def unclosedFlow (s : Str) : Bool :=
  (s.contains '\x7b' && !(s.contains '\x7d'))
    || (s.contains '[' && !(s.contains ']'))

/-- Model of `YAML.parse` from the yaml package on the subset of inputs
this plugin feeds it: empty or whitespace input parses to null, an
unclosed flow collection (for example a lone opening brace) raises a
parse error, a block of simple `key: value` lines parses to a string
mapping, and other plain content parses (without throwing) to a plain
scalar. Closed flow collections and nested block structures are outside
the modelled subset. -/
def yamlParse (s : Str) : Except Unit YamlValue :=
  if trimStr s = [] then .ok .null
  else if unclosedFlow s then .error ()
  else
    let lines := (splitOnChar '\n' s).map trimStr |>.filter (· ≠ [])
    match lines.mapM yamlLine with
    | some ps => .ok (.map ps)
    | none => .ok (.scalar (trimStr s))

/-- The getYAMLMetadata function of renderer.ts. A value `.ok .null`
models YAML.parse returning null; `.error` models a YAML parse
exception propagating to the caller. The JavaScript `substring(0, -1)`
on a missing closing marker clamps to the empty string, whose parse is
null. -/
def getYAMLMetadata (markdown : Str) : Except Unit YamlValue :=
  let m := trimStr markdown
  if strStartsWith m "---".data then
    let trailing := m.drop 3
    let fm := match idxOfSubstr "---".data trailing with
              | none => []
              | some i => trailing.take i
    yamlParse (trimStr fm)
  else .ok (.map [])

/-- The fileBaseName helper of renderer.ts. -/
def fileBaseName (file : Str) : Str := basenameExt file (extname file)

/- ///////////////////////////////////////////////////////////////////
The DOM fragment model. The host renderer produces a fragment which the
post-processing stages of renderer.ts traverse with querySelectorAll and
mutate in place; the fragment is modelled as a list of elements, and each
loop of postProcessRenderedHTML as a pass over that list. An anchor
element stores its resolved href property (the DOM resolves the href
attribute of an internal link against the app base URL, which is why the
code compares against the app:// prefix).
/////////////////////////////////////////////////////////////////// -/

inductive Elem where
  /-- A run of markup with no element the pipeline touches. -/
  | text (s : Str)
  /-- An `a` element: resolved href property and inner HTML. -/
  | anchor (href : Str) (inner : Str)
  /-- An `img` element with its src property. -/
  | image (src : Str)
  /-- A span with a src attribute (the broken image embeds fixed first). -/
  | srcSpan (src : Str) (inner : Str)
  /-- A span of class internal-embed with its src attribute. -/
  | embedSpan (src : Str) (inner : Str)
  /-- An inline svg diagram: its internal style element (none when the
      diagram has no style child yet) and its remaining inner markup. -/
  | svg (style : Option Str) (body : Str)
  /-- A frontmatter / frontmatter-container element. -/
  | frontmatter (inner : Str)
  /-- The img element convertSVGToPNG produces from an svg: a raster of
      the svg snapshot (style and body) at the given scale; its data URL
      src never carries the app:// prefix. -/
  | rasterized (style : Str) (body : Str) (scale : Nat)
deriving DecidableEq

/-- The in-app URI scheme prefix of renderer.ts. -/
def appPrefix : Str := "app://obsidian.md/".data

/-- Model of the DOM resolution of a relative href attribute against the
app base URL, for the plain relative references the plugin writes. -/
def domResolve (attr : Str) : Str := appPrefix ++ attr

/-- Serializes one element back to HTML text (outerHTML). -/
def elemHTML : Elem → Str
  | .text s => s
  | .anchor href inner =>
    "<a href=\"".data ++ href ++ "\">".data ++ inner ++ "</a>".data
  | .image src => "<img src=\"".data ++ src ++ "\">".data
  | .srcSpan src inner =>
    "<span src=\"".data ++ src ++ "\">".data ++ inner ++ "</span>".data
  | .embedSpan src inner =>
    "<span class=\"internal-embed\" src=\"".data ++ src ++ "\">".data
      ++ inner ++ "</span>".data
  | .svg style body =>
    "<svg>".data
      ++ (match style with
          | some st => "<style>".data ++ st ++ "</style>".data
          | none => [])
      ++ body ++ "</svg>".data
  | .frontmatter inner => "<div class=\"frontmatter\">".data ++ inner ++ "</div>".data
  | .rasterized _ _ _ => "<img src=\"data:image/png;base64,...\">".data

/-- Serializes a fragment (the innerHTML of the hidden wrapper div). -/
def innerHTML (es : List Elem) : Str := (es.map elemHTML).flatten

/- ///////////////////////////////////////////////////////////////////
The post-processing stages of postProcessRenderedHTML (renderer.ts),
in source order. Only the embed-expansion stage recurses; it is defined
later together with render.
/////////////////////////////////////////////////////////////////// -/

def imageExts : List Str := [".png".data, ".jpg".data, ".gif".data, ".jpeg".data]

def endsWithImageExt (s : Str) : Bool := imageExts.any (fun e => e.isSuffixOf s)

/-- First loop: spans carrying an image src attribute have their inner
HTML cleared and their tag rewritten from span to img. -/
def processSrcSpans (elems : List Elem) : List Elem :=
  elems.map (fun e =>
    match e with
    | .srcSpan src inner =>
      if endsWithImageExt src then .image src else .srcSpan src inner
    | e => e)

/-- The internal-link rewrite applied to an anchor href that carries the
app:// prefix, when links are kept: the path is resolved against the
document directory and, when a link extension is configured and the
resolved path has no extension, the extension is inserted before any
fragment marker. -/
def rewriteHref (settings : PandocPluginSettings) (dir href0 : Str) : Str :=
  if settings.addExtensionsToInternalLinks ≠ [] ∧ strStartsWith href0 appPrefix then
    if extname (pjoin dir (href0.drop appPrefix.length)) = [] then
      match idxOfChar '#' (basename (pjoin dir (href0.drop appPrefix.length))) with
      | some i =>
        pjoin (dirname (pjoin dir (href0.drop appPrefix.length)))
          ((basename (pjoin dir (href0.drop appPrefix.length))).take i
            ++ '.' :: settings.addExtensionsToInternalLinks
            ++ (basename (pjoin dir (href0.drop appPrefix.length))).drop i)
      | none =>
        pjoin (dirname (pjoin dir (href0.drop appPrefix.length)))
          (basename (pjoin dir (href0.drop appPrefix.length))
            ++ '.' :: settings.addExtensionsToInternalLinks)
    else pjoin dir (href0.drop appPrefix.length)
  else pjoin dir (href0.drop appPrefix.length)

/-- Third loop, one anchor: anchors without the app:// prefix are left
alone; otherwise, in link mode (or for html output) the href is
rewritten, in strip mode the element is removed (`none`), in text mode
it is replaced by its text. -/
def processAnchorElem (settings : PandocPluginSettings) (outputFormat dir : Str) :
    Elem → Option Elem
  | .anchor href inner =>
    if strStartsWith href appPrefix = false then some (.anchor href inner)
    else if settings.linkStrippingBehaviour = LinkMode.link ∨ outputFormat = "html".data then
      some (.anchor (rewriteHref settings dir href) inner)
    else if settings.linkStrippingBehaviour = LinkMode.strip then none
    else if settings.linkStrippingBehaviour = LinkMode.text then some (.text inner)
    else some (.anchor href inner)
  | e => some e

/-- Third loop of postProcessRenderedHTML: the internal-link fix. -/
def processAnchors (settings : PandocPluginSettings) (outputFormat dir : Str)
    (elems : List Elem) : List Elem :=
  elems.filterMap (processAnchorElem settings outputFormat dir)

/-- Fourth loop: image srcs with the app:// prefix are rewritten to
absolute paths, but only for non-html output at the top level (embedded
notes and html output leave every src untouched). -/
def processImages (outputFormat : Str) (parentFiles : List Str) (dir : Str)
    (elems : List Elem) : List Elem :=
  if outputFormat ≠ "html".data ∧ parentFiles = [] then
    elems.map (fun e =>
      match e with
      | .image src =>
        .image (if strStartsWith src appPrefix then pjoin dir (src.drop appPrefix.length) else src)
      | e => e)
  else elems

/-- Fifth step: frontmatter elements are removed unless the user asked
for the frontmatter to stay visible. -/
def removeFrontmatter (settings : PandocPluginSettings) (elems : List Elem) : List Elem :=
  if settings.displayYAMLFrontmatter then elems
  else elems.filter (fun e =>
    match e with
    | .frontmatter _ => false
    | _ => true)

/-- The currentThemeIsLight helper of renderer.ts: a failed config read
counts as light; otherwise any theme other than obsidian is light. -/
def currentThemeIsLight (env : RenderEnv) : Bool :=
  match env.appConfig with
  | none => true
  | some cfg => cfg.theme != "obsidian".data

/-- The mermaidCSS helper of renderer.ts: the CSS-variable string is
assembled for every configuration, biased to the light palette unless
the user selected dark (or the current theme is dark). -/
def mermaidCSS (settings : PandocPluginSettings) (env : RenderEnv) : Str :=
  let light := if settings.injectAppCSS = InjectMode.dark then false
               else if settings.injectAppCSS = InjectMode.current then currentThemeIsLight env
               else true
  appCSSVariables light

/-- The marker the svg loop appends for Mermaid arrowheads (the template
string in the source literally begins and ends with a quote). -/
def mermaidMarker : Str :=
  ("\"<marker id=\"mermaid_arrowhead\" viewBox=\"0 0 10 10\" refX=\"9\" refY=\"5\" "
    ++ "markerUnits=\"strokeWidth\" markerWidth=\"8\" markerHeight=\"6\" orient=\"auto\">"
    ++ "<path d=\"M 0 0 L 10 5 L 0 10 z\" class=\"arrowheadPath\" "
    ++ "style=\"stroke-width: 1; stroke-dasharray: 1, 0;\"></path></marker>\"").data

def arrowheadPat : Str := "app://obsidian.md/index.html#arrowhead".data

/-- Fuel-indexed worker for the arrowhead regex replacement; the fuel
starts at the input length and each step consumes at least one input
character, so the fuel never runs out. -/
def fixArrowheadsAux : Nat → Str → Str
  | _, [] => []
  | 0, s => s
  | n + 1, c :: cs =>
    if strStartsWith (c :: cs) arrowheadPat then
      "#mermaid_arrowhead".data
        ++ fixArrowheadsAux n (((c :: cs).drop arrowheadPat.length).dropWhile (fun d => d.isDigit))
    else c :: fixArrowheadsAux n cs

/-- Model of the global regex replacement rewriting every
app://obsidian.md/index.html#arrowheadNNN reference in the svg markup to
the local #mermaid_arrowhead fragment. -/
def fixArrowheads (s : Str) : Str := fixArrowheadsAux s.length s

/-- Sixth loop, one element: every svg gets the assembled CSS-variable
string appended to its internal style element (created empty when
absent), then the arrowhead marker is appended and arrowhead references
localised; for non-html output the svg is replaced by the raster image
convertSVGToPNG produces from that snapshot. -/
def processSvgElem (settings : PandocPluginSettings) (outputFormat css : Str) :
    Elem → Elem
  | .svg style body =>
    let st := (style.getD []) ++ css
    let body2 := fixArrowheads (body ++ mermaidMarker)
    if outputFormat ≠ "html".data then
      .rasterized st body2 (if settings.highDPIDiagrams then 2 else 1)
    else .svg (some st) body2
  | e => e

/-- Sixth loop of postProcessRenderedHTML: the Mermaid diagram fix. -/
def processSvgs (settings : PandocPluginSettings) (outputFormat css : Str)
    (elems : List Elem) : List Elem :=
  elems.map (processSvgElem settings outputFormat css)

/- ///////////////////////////////////////////////////////////////////
CSS assembly (renderer.ts getThemeCSS, getCustomCSS, getDesiredCSS) and
the standalone document wrapper.
/////////////////////////////////////////////////////////////////// -/

/-- The getThemeCSS function of renderer.ts: nothing when app CSS
injection is off or the config cannot be read; otherwise the built-in
app CSS for the selected palette, plus the third-party theme stylesheet
when requested. A failed theme-stylesheet read leaves the inner variable
undefined, the subsequent toString() throws, and the outer catch returns
the empty string. -/
def getThemeCSS (settings : PandocPluginSettings) (env : RenderEnv)
    (vaultBasePath : Str) : Str :=
  if settings.injectAppCSS = InjectMode.none then []
  else
    match env.appConfig with
    | none => []
    | some cfg =>
      let light0 := currentThemeIsLight env
      let light1 := if settings.injectAppCSS = InjectMode.light then true else light0
      let light := if settings.injectAppCSS = InjectMode.dark then false else light1
      if settings.injectThemeCSS then
        match env.fsRead (pjoinList [vaultBasePath, ".obsidian".data, "themes".data,
                                     cfg.cssTheme ++ ".css".data]) with
        | none => []
        | some t => appCSS light ++ t
      else appCSS light ++ []

/-- The getCustomCSS function of renderer.ts. A null or empty
customCSSFile setting makes the function return before producing a
string (JavaScript undefined, modelled as `none`); otherwise the file is
read as an absolute path and then as a vault-relative path (the second
read overwriting the first when both succeed), and a failed read of both
yields the empty string after a warning notice. -/
def getCustomCSS (settings : PandocPluginSettings) (env : RenderEnv)
    (vaultBasePath : Str) : Option Str :=
  match settings.customCSSFile with
  | none => none
  | some file =>
    if file = [] then none
    else
      let buffer := match env.fsRead (pjoin vaultBasePath file) with
                    | some rel => some rel
                    | none => env.fsRead file
      match buffer with
      | none => some []
      | some b => some b

def joinWithSpace : List Str → Str
  | [] => []
  | [s] => s
  | s :: rest => s ++ ' ' :: joinWithSpace rest

/-- Model of JavaScript `css += x` where `x` may be undefined: appending
undefined appends the text undefined. -/
def jsAppendOpt (css : Str) : Option Str → Str
  | some s => css ++ s
  | none => css ++ "undefined".data

/-- The getDesiredCSS function of renderer.ts: theme CSS, then every
style element of the live document (unless app CSS injection is off),
then the MathJax font CSS when the rendered HTML contains the CHTML
marker, then the custom CSS file appended with JavaScript `+=`. -/
def getDesiredCSS (settings : PandocPluginSettings) (env : RenderEnv)
    (html : Str) (vaultBasePath : Str) : Str :=
  let css0 := getThemeCSS settings env vaultBasePath
  let css1 := if settings.injectAppCSS ≠ InjectMode.none
              then css0 ++ ' ' :: joinWithSpace env.docStyles else css0
  let css2 := if containsSubstr html "jax=\"CHTML\"".data
              then css1 ++ ' ' :: mathJaxFontCSS else css1
  jsAppendOpt css2 (getCustomCSS settings env vaultBasePath)

/-- The standaloneHTML function of renderer.ts: wraps the processed
fragment in a full document with the title and the assembled CSS. -/
def standaloneHTML (settings : PandocPluginSettings) (env : RenderEnv)
    (html title vaultBasePath : Str) : Str :=
  let css := getDesiredCSS settings env html vaultBasePath
  "<!doctype html>\n<html>\n    <head>\n        <title>".data ++ title
    ++ "</title>\n        <meta charset=\x27utf-8\x27/>\n        <style>\n".data ++ css
    ++ "\n</style>\n    </head>\n    <body>\n".data ++ html
    ++ "\n    </body>\n</html>".data

/- ///////////////////////////////////////////////////////////////////
The vault and the recursive embed expansion. A document is its raw
markdown text together with the fragment the host renderer produces for
it (the host renderer is an opaque collaborator, so its output is data);
the vault is the file system visible to readFile, keyed by absolute
path.
/////////////////////////////////////////////////////////////////// -/

structure MDoc where
  src : Str
  elems : List Elem
deriving DecidableEq

abbrev Vault := List (Str × MDoc)

/-- Model of fs.promises.readFile on markdown files: `none` is a read
failure (the thrown error). -/
def lookupVault (v : Vault) (k : Str) : Option MDoc :=
  (v.find? (fun p => p.1 = k)).map (·.2)

/-- The set of paths present in the vault. -/
def vaultKeys (v : Vault) : Finset Str := (v.map Prod.fst).toFinset

/-- Termination measure, first component: how many vault files are still
outside the ancestor list and distinct from the current file. -/
def cardM (v : Vault) (inputFile : Str) (parents : List Str) : Nat :=
  ((vaultKeys v).filter (fun k => k ∉ parents ∧ k ≠ inputFile)).card

/-- Termination measure, second component: whether the current file has
itself already been recorded as an ancestor. -/
def flagM (inputFile : Str) (parents : List Str) : Nat :=
  if inputFile ∈ parents then 0 else 1

theorem lookupVault_mem_keys {v : Vault} {k : Str} {d : MDoc}
    (h : lookupVault v k = some d) : k ∈ vaultKeys v := by
  unfold lookupVault at h
  cases ho : v.find? (fun p => p.1 = k) with
  | none => rw [ho] at h; cases h
  | some p =>
    have hm := List.mem_of_find?_eq_some ho
    have hp := List.find?_some ho
    simp only [decide_eq_true_eq] at hp
    unfold vaultKeys
    rw [List.mem_toFinset]
    exact hp ▸ List.mem_map_of_mem Prod.fst hm

theorem cardM_lt {v : Vault} {file inputFile : Str} {parents : List Str}
    (hk : file ∈ vaultKeys v) (hnp : file ∉ parents) (hne : file ≠ inputFile) :
    cardM v file (parents ++ [inputFile]) < cardM v inputFile parents := by
  unfold cardM
  apply Finset.card_lt_card
  rw [Finset.ssubset_iff_of_subset]
  · refine ⟨file, Finset.mem_filter.mpr ⟨hk, hnp, hne⟩, ?_⟩
    intro hmem
    exact (Finset.mem_filter.mp hmem).2.2 rfl
  · intro k hk2
    rw [Finset.mem_filter] at hk2 ⊢
    refine ⟨hk2.1, ?_, ?_⟩
    · intro hkp
      exact hk2.2.1 (List.mem_append.mpr (Or.inl hkp))
    · intro hkeq
      exact hk2.2.1 (List.mem_append.mpr (Or.inr (by simp [hkeq])))

theorem cardM_self {v : Vault} {inputFile : Str} {parents : List Str} :
    cardM v inputFile (parents ++ [inputFile]) = cardM v inputFile parents := by
  unfold cardM
  congr 1
  apply Finset.filter_congr
  intro k _
  simp only [List.mem_append, List.mem_singleton, eq_iff_iff]
  constructor
  · intro ⟨h1, h2⟩
    exact ⟨fun hp => h1 (Or.inl hp), h2⟩
  · intro ⟨h1, h2⟩
    exact ⟨fun hp => hp.elim h1 h2, h2⟩

mutual

/-- Core of the render function of renderer.ts: the processed fragment
(the wrapper contents after postProcessRenderedHTML ran all its loops)
and the metadata record with the title defaulted to the file base name.
`.error` models an exception escaping render: a YAML parse error thrown
by getYAMLMetadata, or the `metadata.title ??=` property write failing
on a non-object parse result (on null the property write throws a
TypeError; on a primitive scalar it throws as well, because the
compiled plugin runs under the use-strict directive that the TypeScript
compiler emits, where assigning a property of a primitive is a
TypeError). The css value for diagrams is recomputed per invocation,
exactly as render awaits mermaidCSS on each call. String assembly
(innerHTML extraction and the standalone wrapper) is layered on top by
`render` below. -/
def renderCore (vault : Vault) (env : RenderEnv) (settings : PandocPluginSettings)
    (doc : MDoc) (inputFile vaultBasePath outputFormat : Str) (parents : List Str) :
    Except Unit (List Elem × Metadata) :=
  let css := mermaidCSS settings env
  let dir := dirname inputFile
  let elems := processSvgs settings outputFormat css
    (removeFrontmatter settings
      (processImages outputFormat parents dir
        (processAnchors settings outputFormat dir
          (expandEmbeds vault env settings inputFile vaultBasePath outputFormat parents
            (processSrcSpans doc.elems)))))
  match getYAMLMetadata doc.src with
  | .error e => .error e
  | .ok .null => .error ()
  | .ok (.scalar _) => .error ()
  | .ok (.map m) => .ok (elems, setIfAbsent m "title".data (fileBaseName inputFile))
termination_by (cardM vault inputFile parents, flagM inputFile parents, 1, 0)

/-- Second loop of postProcessRenderedHTML: each internal-embed span
with a non-empty src attribute resolves its target against the document
directory with the markdown extension appended; a target already on the
ancestor list becomes a plain link (the cycle breaker, no recursion), a
target that fails to read or render is left in place (the catch logs and
continues), and otherwise the recursively rendered fragment is spliced
in place of the span, where the following loops of the parent pass will
also traverse it. -/
def expandEmbeds (vault : Vault) (env : RenderEnv) (settings : PandocPluginSettings)
    (inputFile vaultBasePath outputFormat : Str) (parents : List Str)
    (elems : List Elem) : List Elem :=
  match elems with
  | [] => []
  | .embedSpan src inner :: rest =>
    (if src = [] then [Elem.embedSpan src inner]
     else
       if hcy : pjoin (dirname inputFile) (src ++ ".md".data) ∈ parents then
         [Elem.anchor (domResolve (src ++ ".md".data)) inner]
       else
         match hlk : lookupVault vault (pjoin (dirname inputFile) (src ++ ".md".data)) with
         | none => [Elem.embedSpan src inner]
         | some d =>
           match renderCore vault env settings d (pjoin (dirname inputFile) (src ++ ".md".data))
               vaultBasePath outputFormat (parents ++ [inputFile]) with
           | .error _ => [Elem.embedSpan src inner]
           | .ok (es, _) => es)
    ++ expandEmbeds vault env settings inputFile vaultBasePath outputFormat parents rest
  | e :: rest => e :: expandEmbeds vault env settings inputFile vaultBasePath outputFormat parents rest
termination_by (cardM vault inputFile parents, flagM inputFile parents, 0, elems.length)
decreasing_by
  · rcases eq_or_ne (pjoin (dirname inputFile) (src ++ ".md".data)) inputFile with heq | hne
    · rw [heq, cardM_self]
      apply Prod.Lex.right
      apply Prod.Lex.left
      have h0 : flagM inputFile (parents ++ [inputFile]) = 0 := by
        unfold flagM
        simp
      have h1 : flagM inputFile parents = 1 := by
        unfold flagM
        rw [heq] at hcy
        simp [hcy]
      omega
    · apply Prod.Lex.left
      exact cardM_lt (lookupVault_mem_keys hlk) hcy hne
  · apply Prod.Lex.right
    apply Prod.Lex.right
    apply Prod.Lex.right
    simp
  · apply Prod.Lex.right
    apply Prod.Lex.right
    apply Prod.Lex.right
    simp

end

/-- The postProcessRenderedHTML function of renderer.ts: its loops in
source order (image-span fix, embed expansion, internal-link fix, image
src fix, frontmatter removal, diagram fix). -/
def postProcessRenderedHTML (vault : Vault) (env : RenderEnv)
    (settings : PandocPluginSettings) (inputFile : Str) (elems : List Elem)
    (vaultBasePath outputFormat : Str) (parents : List Str) (css : Str) : List Elem :=
  let dir := dirname inputFile
  processSvgs settings outputFormat css
    (removeFrontmatter settings
      (processImages outputFormat parents dir
        (processAnchors settings outputFormat dir
          (expandEmbeds vault env settings inputFile vaultBasePath outputFormat parents
            (processSrcSpans elems)))))

/-- The render function of renderer.ts at the string level: the
processed fragment serialized from the hidden wrapper, wrapped by
standaloneHTML exactly when the call is top level (the ancestor list is
empty), paired with the metadata. -/
def render (vault : Vault) (env : RenderEnv) (settings : PandocPluginSettings)
    (doc : MDoc) (inputFile vaultBasePath outputFormat : Str) (parents : List Str) :
    Except Unit (Str × Metadata) :=
  match renderCore vault env settings doc inputFile vaultBasePath outputFormat parents with
  | .error e => .error e
  | .ok (es, m) =>
    let html := innerHTML es
    let title := (lookupMeta m "title".data).getD []
    if parents = [] then .ok (standaloneHTML settings env html title vaultBasePath, m)
    else .ok (html, m)

/-- The internal stylesheet of a diagram element: the style child of an
svg, or the style recorded in the snapshot a raster image was produced
from. -/
def elemStyle : Elem → Option Str
  | .svg st _ => st
  | .rasterized st _ _ => some st
  | _ => none

/- ///////////////////////////////////////////////////////////////////
The Pandoc process wrapper (pandoc.ts). The promise executor wires the
stdout end event to the only settlement for a spawned conversion; the
model captures the state at that event: the stat result for the
destination file (for a non-STDOUT output), and the accumulated stdout
and stderr text.
/////////////////////////////////////////////////////////////////// -/

/-- The fs.Stats information the end handler consults. `none` models the
stat callback receiving an error (missing file), in which case the stats
argument is undefined and `stats && stats.isFile()` is falsy. -/
structure FileStat where
  isFile : Bool
  size : Nat
deriving DecidableEq

/-- How the pandoc promise settles. -/
inductive SettleResult where
  /-- resolve({result, error, command}) -/
  | resolved (result error command : Str)
  /-- reject(error): the accumulated stderr text -/
  | rejectedError (error : Str)
  /-- reject(value): the STDOUT path first rejects with the value object -/
  | rejectedValue (result error command : Str)
deriving DecidableEq

/-- The stdout end handler of pandoc.ts (the only settlement of a
spawned conversion): for a destination-file output the promise resolves
with the accumulated output exactly when stat reports an existing
regular file, and otherwise rejects with the accumulated stderr text;
for STDOUT output it settles on whether any output text accumulated
(first settlement wins, so an empty result rejects with the value
object). -/
def pandocOnEnd (stdoutSink : Bool) (destStat : Option FileStat)
    (result error command : Str) : SettleResult :=
  if stdoutSink = false then
    match destStat with
    | some st => if st.isFile then .resolved result error command
                 else .rejectedError error
    | none => .rejectedError error
  else if result ≠ [] then .resolved result error command
  else .rejectedValue result error command

/-- A minimal environment for concrete instances: every read fails, no
document styles, no readable app config. -/
def env0 : RenderEnv where
  fsRead := fun _ => none
  docStyles := []
  appConfig := none

/-- The default settings with app-CSS injection turned off. -/
def settingsNoCSS : PandocPluginSettings :=
  { DEFAULT_SETTINGS with injectAppCSS := InjectMode.none }

/-- A vault with a two-document embedding cycle: A embeds B and B embeds
A (both with empty sources, so metadata extraction succeeds). -/
def vaultAB : Vault :=
  [("/v/A.md".data, ⟨[], [Elem.embedSpan "B".data "ib".data]⟩),
   ("/v/B.md".data, ⟨[], [Elem.embedSpan "A".data "ia".data]⟩)]

/- ///////////////////////////////////////////////////////////////////
Lemmas about the path model.
/////////////////////////////////////////////////////////////////// -/

theorem takeWhile_append_of_pos {p : Char → Bool} {xs : Str} (h : ∀ x ∈ xs, p x = true)
    {y : Char} (hy : p y = false) (ys : Str) :
    (xs ++ y :: ys).takeWhile p = xs := by
  induction xs with
  | nil => simp [List.takeWhile_cons, hy]
  | cons a as ih =>
    have ha := h a (by simp)
    simp only [List.cons_append, List.takeWhile_cons, ha, if_true]
    rw [ih (fun x hx => h x (by simp [hx]))]

theorem takeWhile_eq_self_of_all {p : Char → Bool} {xs : Str} (h : ∀ x ∈ xs, p x = true) :
    xs.takeWhile p = xs := by
  induction xs with
  | nil => rfl
  | cons a as ih =>
    have ha := h a (by simp)
    simp only [List.takeWhile_cons, ha, if_true]
    rw [ih (fun x hx => h x (by simp [hx]))]

theorem dropWhile_cons_of_false {p : Char → Bool} {a : Char} (as : Str) (h : p a = false) :
    (a :: as).dropWhile p = a :: as := by
  simp [List.dropWhile_cons, h]

theorem baseRev_no_slash {s : Str} (hs : s ≠ []) (h : '/' ∉ s) : baseRev s = s.reverse := by
  obtain ⟨c, cs, hrev⟩ : ∃ c cs, s.reverse = c :: cs := by
    cases hr : s.reverse with
    | nil =>
      have := congrArg List.reverse hr
      simp at this
      exact absurd this hs
    | cons c cs => exact ⟨c, cs, rfl⟩
  have hc : c ∈ s := by
    have : c ∈ s.reverse := by rw [hrev]; simp
    simpa using this
  have hcf : (c == '/') = false := by
    simp only [beq_eq_false_iff_ne, ne_eq]
    rintro rfl; exact h hc
  have hall : ∀ x ∈ s.reverse, (x != '/') = true := by
    intro x hx
    simp only [List.mem_reverse] at hx
    simp only [bne_iff_ne, ne_eq]
    rintro rfl; exact h hx
  unfold baseRev
  rw [hrev, @dropWhile_cons_of_false (fun x => x == '/') c cs hcf, ← hrev,
      takeWhile_eq_self_of_all hall]

theorem basename_no_slash {s : Str} (hs : s ≠ []) (h : '/' ∉ s) : basename s = s := by
  unfold basename
  rw [baseRev_no_slash hs h]
  rw [if_neg (by simp [hs])]
  simp

theorem baseRev_append_slash {q b : Str} (hb : b ≠ []) (h : '/' ∉ b) :
    baseRev (q ++ '/' :: b) = b.reverse := by
  obtain ⟨c, cs, hrev⟩ : ∃ c cs, b.reverse = c :: cs := by
    cases hr : b.reverse with
    | nil =>
      have := congrArg List.reverse hr
      simp at this
      exact absurd this hb
    | cons c cs => exact ⟨c, cs, rfl⟩
  have hc : c ∈ b := by
    have : c ∈ b.reverse := by rw [hrev]; simp
    simpa using this
  have hcf : (c == '/') = false := by
    simp only [beq_eq_false_iff_ne, ne_eq]
    rintro rfl; exact h hc
  have hallb : ∀ x ∈ b.reverse, (x != '/') = true := by
    intro x hx
    simp only [List.mem_reverse] at hx
    simp only [bne_iff_ne, ne_eq]
    rintro rfl; exact h hx
  have hrevall : (q ++ '/' :: b).reverse = b.reverse ++ '/' :: q.reverse := by
    simp
  unfold baseRev
  rw [hrevall]
  have hdw : (b.reverse ++ '/' :: q.reverse).dropWhile (fun c => c == '/')
      = b.reverse ++ '/' :: q.reverse := by
    rw [hrev, List.cons_append]
    exact @dropWhile_cons_of_false (fun x => x == '/') c (cs ++ '/' :: q.reverse) hcf
  rw [hdw, takeWhile_append_of_pos hallb (by simp) _]

theorem basename_append_slash {q b : Str} (hb : b ≠ []) (h : '/' ∉ b) :
    basename (q ++ '/' :: b) = b := by
  unfold basename
  rw [baseRev_append_slash hb h]
  rw [if_neg (by simp [hb])]
  simp

theorem afterDot_of_no_dot {b : Str} (h : '.' ∉ b) : afterDot b = b := by
  have hall : ∀ x ∈ b.reverse, (x != '.') = true := by
    intro x hx
    simp only [List.mem_reverse] at hx
    simp only [bne_iff_ne, ne_eq]
    rintro rfl; exact h hx
  unfold afterDot
  rw [takeWhile_eq_self_of_all hall]
  simp

theorem extname_eq_nil_of_no_dot {s : Str} (h : '.' ∉ basename s) : extname s = [] := by
  unfold extname
  rw [afterDot_of_no_dot h]
  simp

theorem splitOnChar_ne_nil (c : Char) (s : Str) : splitOnChar c s ≠ [] := by
  cases s with
  | nil => simp [splitOnChar]
  | cons a as =>
    unfold splitOnChar
    cases h : splitOnChar c as with
    | nil => simp
    | cons s ss => by_cases hac : (a == c) = true <;> simp [hac]

theorem splitOnChar_of_not_mem {c : Char} {s : Str} (h : c ∉ s) :
    splitOnChar c s = [s] := by
  induction s with
  | nil => rfl
  | cons a as ih =>
    have hne : (a == c) = false := by
      simp only [beq_eq_false_iff_ne, ne_eq]
      rintro rfl; exact h (by simp)
    unfold splitOnChar
    rw [ih (fun hm => h (by simp [hm]))]
    simp [hne]

theorem splitOnChar_append_last {c : Char} {b : Str} (h : c ∉ b) (d : Str) :
    splitOnChar c (d ++ c :: b) = splitOnChar c d ++ [b] := by
  induction d with
  | nil =>
    simp only [List.nil_append]
    unfold splitOnChar
    rw [splitOnChar_of_not_mem h]
    simp [splitOnChar]
  | cons a d ih =>
    rw [List.cons_append]
    unfold splitOnChar
    rw [ih]
    cases hsd : splitOnChar c d with
    | nil => exact absurd hsd (splitOnChar_ne_nil c d)
    | cons s ss => by_cases hac : (a == c) = true <;> simp [hac]

theorem normAcc_append_last (abs : Bool) {b : Str} (hb0 : b ≠ []) (hb1 : b ≠ ['.'])
    (hb2 : b ≠ ['.', '.']) (acc l : List Str) :
    normAcc abs acc (l ++ [b]) = b :: normAcc abs acc l := by
  have h0 : ¬(b = [] ∨ b = ['.']) := by simp [hb0, hb1]
  induction l generalizing acc with
  | nil =>
    simp only [List.nil_append]
    show normAcc abs acc [b] = b :: normAcc abs acc []
    unfold normAcc
    rw [if_neg h0, if_neg hb2]
    rfl
  | cons s l ih =>
    rw [List.cons_append]
    by_cases h1 : s = [] ∨ s = ['.']
    · show normAcc abs acc (s :: (l ++ [b])) = b :: normAcc abs acc (s :: l)
      unfold normAcc
      rw [if_pos h1, if_pos h1, ih]
    · by_cases h2 : s = ['.', '.']
      · show normAcc abs acc (s :: (l ++ [b])) = b :: normAcc abs acc (s :: l)
        unfold normAcc
        rw [if_neg h1, if_neg h1, if_pos h2, if_pos h2, ih]
      · show normAcc abs acc (s :: (l ++ [b])) = b :: normAcc abs acc (s :: l)
        unfold normAcc
        rw [if_neg h1, if_neg h1, if_neg h2, if_neg h2, ih]

theorem joinSegs_append_last {ys : List Str} (h : ys ≠ []) (b : Str) :
    joinSegs (ys ++ [b]) = joinSegs ys ++ '/' :: b := by
  induction ys with
  | nil => contradiction
  | cons y ys ih =>
    cases ys with
    | nil => rfl
    | cons z zs =>
      rw [List.cons_append]
      show y ++ '/' :: joinSegs ((z :: zs) ++ [b]) = (y ++ '/' :: joinSegs (z :: zs)) ++ '/' :: b
      rw [ih (by simp)]
      simp

theorem normAcc_single (abs : Bool) {b : Str} (hb0 : b ≠ []) (hb1 : b ≠ ['.'])
    (hb2 : b ≠ ['.', '.']) : normAcc abs [] [b] = [b] := by
  have := normAcc_append_last abs hb0 hb1 hb2 [] []
  simpa [normAcc] using this

theorem pjoin_last (a : Str) {b : Str} (hb0 : b ≠ []) (hbs : '/' ∉ b) (hb1 : b ≠ ['.'])
    (hb2 : b ≠ ['.', '.']) :
    ∃ pre, pjoin a b = pre ++ b ∧ (pre = [] ∨ ∃ q, pre = q ++ ['/']) := by
  by_cases ha : a = []
  · subst ha
    have hparts : [([] : Str), b].filter (· ≠ []) = [b] := by simp [hb0]
    unfold pjoin pjoinList
    rw [hparts]
    rw [if_neg (by simp)]
    have hjb : joinSegs [b] = b := rfl
    rw [hjb]
    unfold normalizePath
    rw [if_neg hb0]
    obtain ⟨c, cs, rfl⟩ : ∃ c cs, b = c :: cs := by
      cases b with
      | nil => exact absurd rfl hb0
      | cons c cs => exact ⟨c, cs, rfl⟩
    have hc : c ≠ '/' := by rintro rfl; exact hbs (by simp)
    rw [if_neg (by simp [hc])]
    rw [splitOnChar_of_not_mem hbs, normAcc_single false hb0 hb1 hb2]
    simp only [List.reverse_singleton]
    have hjb2 : joinSegs [c :: cs] = c :: cs := rfl
    rw [hjb2, if_neg hb0]
    exact ⟨[], by simp, Or.inl rfl⟩
  · have hparts : [a, b].filter (· ≠ []) = [a, b] := by simp [ha, hb0]
    unfold pjoin pjoinList
    rw [hparts]
    rw [if_neg (by simp)]
    have hjoined : joinSegs [a, b] = a ++ '/' :: b := by
      show a ++ '/' :: joinSegs [b] = a ++ '/' :: b
      rfl
    rw [hjoined]
    obtain ⟨c, as, rfl⟩ : ∃ c as, a = c :: as := by
      cases a with
      | nil => exact absurd rfl ha
      | cons c as => exact ⟨c, as, rfl⟩
    have hsegs : splitOnChar '/' ((c :: as) ++ '/' :: b)
        = splitOnChar '/' (c :: as) ++ [b] := splitOnChar_append_last hbs _
    unfold normalizePath
    rw [if_neg (by simp)]
    by_cases hcs : c = '/'
    · rw [if_pos (by simp [hcs])]
      rw [hsegs, normAcc_append_last true hb0 hb1 hb2]
      rw [List.reverse_cons]
      cases hX : (normAcc true [] (splitOnChar '/' (c :: as))).reverse with
      | nil =>
        simp only [List.nil_append]
        have : joinSegs [b] = b := rfl
        rw [this]
        exact ⟨['/'], by simp, Or.inr ⟨[], by simp⟩⟩
      | cons z zs =>
        rw [joinSegs_append_last (by simp)]
        exact ⟨'/' :: joinSegs (z :: zs) ++ ['/'], by simp,
               Or.inr ⟨'/' :: joinSegs (z :: zs), rfl⟩⟩
    · rw [if_neg (by simp [hcs])]
      rw [hsegs, normAcc_append_last false hb0 hb1 hb2]
      rw [List.reverse_cons]
      cases hX : (normAcc false [] (splitOnChar '/' (c :: as))).reverse with
      | nil =>
        simp only [List.nil_append]
        have hjb : joinSegs [b] = b := rfl
        rw [hjb, if_neg hb0]
        exact ⟨[], by simp, Or.inl rfl⟩
      | cons z zs =>
        rw [joinSegs_append_last (by simp)]
        rw [if_neg (by simp)]
        exact ⟨joinSegs (z :: zs) ++ ['/'], by simp, Or.inr ⟨joinSegs (z :: zs), rfl⟩⟩

theorem basename_pjoin {a b : Str} (hb0 : b ≠ []) (hbs : '/' ∉ b) (hb1 : b ≠ ['.'])
    (hb2 : b ≠ ['.', '.']) : basename (pjoin a b) = b := by
  obtain ⟨pre, hp, hsh⟩ := pjoin_last (a := a) hb0 hbs hb1 hb2
  rcases hsh with rfl | ⟨q, rfl⟩
  · rw [hp, List.nil_append]
    exact basename_no_slash hb0 hbs
  · rw [hp, List.append_assoc, List.singleton_append]
    exact basename_append_slash hb0 hbs

theorem extname_pjoin_nil {a b : Str} (hb0 : b ≠ []) (hbs : '/' ∉ b) (hb1 : b ≠ ['.'])
    (hb2 : b ≠ ['.', '.']) (hdot : '.' ∉ b) : extname (pjoin a b) = [] := by
  apply extname_eq_nil_of_no_dot
  rw [basename_pjoin hb0 hbs hb1 hb2]
  exact hdot

theorem strStartsWith_append (p s : Str) : strStartsWith (p ++ s) p = true := by
  induction p with
  | nil => cases s <;> rfl
  | cons a as ih => simp [strStartsWith, ih]

theorem idxOfChar_append {c : Char} {xs : Str} (h : c ∉ xs) (ys : Str) :
    idxOfChar c (xs ++ c :: ys) = some xs.length := by
  induction xs with
  | nil => simp [idxOfChar]
  | cons a as ih =>
    have hne : (a == c) = false := by
      simp only [beq_eq_false_iff_ne, ne_eq]
      rintro rfl; exact h (by simp)
    simp only [List.cons_append, idxOfChar, hne, if_false]
    simp [ih (fun hm => h (by simp [hm]))]

/- ///////////////////////////////////////////////////////////////////
Claim C1.
/////////////////////////////////////////////////////////////////// -/

/-- C1: for an internal-scheme anchor reference whose base has the form
note#section and no file extension, a configured link extension html is
inserted before the fragment marker: the rewritten reference ends in
note.html#section and never in note#section.html; with an empty
configured extension no extension is inserted and the reference resolves
to the bare joined path. -/
theorem c1_extension_inserted_before_fragment
    (settings : PandocPluginSettings) (d note sec : Str)
    (hext : settings.addExtensionsToInternalLinks = "html".data)
    (hn0 : note ≠ [])
    (hn : ∀ c ∈ note, c ≠ '/' ∧ c ≠ '.' ∧ c ≠ '#')
    (hs : ∀ c ∈ sec, c ≠ '/' ∧ c ≠ '.') :
    (∃ pre, rewriteHref settings d (appPrefix ++ (note ++ '#' :: sec))
        = pre ++ (note ++ ".html#".data ++ sec))
    ∧ (¬ ∃ pre, rewriteHref settings d (appPrefix ++ (note ++ '#' :: sec))
        = pre ++ (note ++ "#".data ++ sec ++ ".html".data))
    ∧ (∀ s2 : PandocPluginSettings, s2.addExtensionsToInternalLinks = [] →
        rewriteHref s2 d (appPrefix ++ (note ++ '#' :: sec))
          = pjoin d (note ++ '#' :: sec)) := by
  have hBs : '/' ∉ note ++ '#' :: sec := by
    intro hm
    rcases List.mem_append.mp hm with h1 | h2
    · exact (hn _ h1).1 rfl
    · rcases List.mem_cons.mp h2 with h3 | h4
      · exact absurd h3 (by decide)
      · exact (hs _ h4).1 rfl
  have hBd : '.' ∉ note ++ '#' :: sec := by
    intro hm
    rcases List.mem_append.mp hm with h1 | h2
    · exact (hn _ h1).2.1 rfl
    · rcases List.mem_cons.mp h2 with h3 | h4
      · exact absurd h3 (by decide)
      · exact (hs _ h4).2 rfl
  have hB0 : note ++ '#' :: sec ≠ [] := by simp
  have hB1 : note ++ '#' :: sec ≠ ['.'] := by
    intro he
    exact hBd (he ▸ (by simp))
  have hB2 : note ++ '#' :: sec ≠ ['.', '.'] := by
    intro he
    exact hBd (he ▸ (by simp))
  have hnh : '#' ∉ note := fun hm => (hn _ hm).2.2 rfl
  have hdrop : (appPrefix ++ (note ++ '#' :: sec)).drop appPrefix.length
      = note ++ '#' :: sec := List.drop_left _ _
  have hstart : strStartsWith (appPrefix ++ (note ++ '#' :: sec)) appPrefix = true :=
    strStartsWith_append _ _
  have hmain : rewriteHref settings d (appPrefix ++ (note ++ '#' :: sec))
      = pjoin (dirname (pjoin d (note ++ '#' :: sec)))
          (note ++ '.' :: settings.addExtensionsToInternalLinks ++ '#' :: sec) := by
    unfold rewriteHref
    rw [hdrop]
    rw [if_pos ⟨by rw [hext]; decide, hstart⟩]
    rw [extname_pjoin_nil hB0 hBs hB1 hB2 hBd]
    rw [if_pos rfl]
    rw [basename_pjoin hB0 hBs hB1 hB2]
    rw [idxOfChar_append hnh]
    simp [List.take_left, List.drop_left]
  have hlit : note ++ '.' :: "html".data ++ '#' :: sec
      = note ++ ".html#".data ++ sec := by simp
  rw [hext] at hmain
  rw [hlit] at hmain
  have hNB0 : note ++ ".html#".data ++ sec ≠ [] := by simp
  have hmem : ∀ c ∈ note ++ ".html#".data ++ sec,
      c ∈ note ∨ c ∈ (".html#".data : Str) ∨ c ∈ sec := by
    intro c hc
    rcases List.mem_append.mp hc with h1 | h2
    · rcases List.mem_append.mp h1 with h3 | h4
      · exact Or.inl h3
      · exact Or.inr (Or.inl h4)
    · exact Or.inr (Or.inr h2)
  have hNBs : '/' ∉ note ++ ".html#".data ++ sec := by
    intro hm
    rcases hmem _ hm with h1 | h2 | h3
    · exact (hn _ h1).1 rfl
    · exact absurd h2 (by decide)
    · exact (hs _ h3).1 rfl
  have hNBlen : (note ++ ".html#".data ++ sec).length = note.length + 6 + sec.length := by
    have e1 : (".html#".data : Str).length = 6 := rfl
    simp only [List.length_append, e1]
  have hNB1 : note ++ ".html#".data ++ sec ≠ ['.'] := by
    intro he
    have := congrArg List.length he
    rw [hNBlen] at this
    simp at this
    omega
  have hNB2 : note ++ ".html#".data ++ sec ≠ ['.', '.'] := by
    intro he
    have := congrArg List.length he
    rw [hNBlen] at this
    simp at this
    omega
  obtain ⟨pre, hp, _⟩ :=
    pjoin_last (dirname (pjoin d (note ++ '#' :: sec))) hNB0 hNBs hNB1 hNB2
  rw [hp] at hmain
  refine ⟨⟨pre, hmain⟩, ?_, ?_⟩
  · rintro ⟨q, hq⟩
    have hlen : (note ++ ".html#".data ++ sec).length
        = (note ++ "#".data ++ sec ++ ".html".data).length := by
      have e1 : (".html#".data : Str).length = 6 := rfl
      have e2 : (("#".data : Str)).length = 1 := rfl
      have e3 : ((".html".data : Str)).length = 5 := rfl
      simp only [List.length_append, e1, e2, e3]
      omega
    have hsame := hmain.symm.trans hq
    have hablen : pre.length = q.length := by
      have := congrArg List.length hsame
      simp only [List.length_append] at this
      simp only [List.length_append] at hlen
      omega
    have hsuf := (List.append_inj hsame hablen).2
    simp only [List.append_assoc] at hsuf
    have htail := (List.append_inj hsuf rfl).2
    have htail2 : ('.' :: ("html#".data ++ sec) : Str)
        = '#' :: (sec ++ ".html".data) := htail
    injection htail2 with hhd _
    exact absurd hhd (by decide)
  · intro s2 h2
    unfold rewriteHref
    rw [if_neg (by simp [h2])]
    rw [hdrop]

theorem c1_extension_inserted_before_fragment_witness :
    (∃ pre, rewriteHref DEFAULT_SETTINGS "/d".data
        (appPrefix ++ ("note".data ++ '#' :: "section".data))
        = pre ++ ("note".data ++ ".html#".data ++ "section".data))
    ∧ (¬ ∃ pre, rewriteHref DEFAULT_SETTINGS "/d".data
        (appPrefix ++ ("note".data ++ '#' :: "section".data))
        = pre ++ ("note".data ++ "#".data ++ "section".data ++ ".html".data))
    ∧ (∀ s2 : PandocPluginSettings, s2.addExtensionsToInternalLinks = [] →
        rewriteHref s2 "/d".data (appPrefix ++ ("note".data ++ '#' :: "section".data))
          = pjoin "/d".data ("note".data ++ '#' :: "section".data)) :=
  c1_extension_inserted_before_fragment DEFAULT_SETTINGS "/d".data "note".data "section".data
    rfl (by decide) (by decide) (by decide)

/- ///////////////////////////////////////////////////////////////////
Claim C2.
/////////////////////////////////////////////////////////////////// -/

/-- C2: the embed expansion terminates (expandEmbeds and renderCore are
total functions), and when the resolved target of an embed (the src with
the markdown extension appended, joined to the document directory)
already appears in the ancestor-path list, the embed element is replaced
by a plain link to the extension-appended target and no recursive render
call is made: the result is the link followed by the expansion of the
remaining elements, independent of the vault contents. -/
theorem c2_embed_cycle_breaker
    (vault : Vault) (env : RenderEnv) (settings : PandocPluginSettings)
    (inputFile vaultBasePath outputFormat : Str) (parents : List Str)
    (src inner : Str) (rest : List Elem)
    (hsrc : src ≠ [])
    (hcycle : pjoin (dirname inputFile) (src ++ ".md".data) ∈ parents) :
    expandEmbeds vault env settings inputFile vaultBasePath outputFormat parents
        (Elem.embedSpan src inner :: rest)
      = Elem.anchor (domResolve (src ++ ".md".data)) inner
          :: expandEmbeds vault env settings inputFile vaultBasePath outputFormat parents rest := by
  simp only [expandEmbeds]
  rw [if_neg hsrc, dif_pos hcycle]
  simp

theorem c2_embed_cycle_breaker_witness :
    (pjoin (dirname "/v/B.md".data) ("A".data ++ ".md".data) ∈ (["/v/A.md".data] : List Str))
    ∧ expandEmbeds [] env0 DEFAULT_SETTINGS "/v/B.md".data "/v".data "docx".data
        ["/v/A.md".data] [Elem.embedSpan "A".data "x".data]
      = Elem.anchor (domResolve ("A".data ++ ".md".data)) "x".data
          :: expandEmbeds [] env0 DEFAULT_SETTINGS "/v/B.md".data "/v".data "docx".data
               ["/v/A.md".data] [] :=
  ⟨by decide,
   c2_embed_cycle_breaker [] env0 DEFAULT_SETTINGS "/v/B.md".data "/v".data "docx".data
     ["/v/A.md".data] "A".data "x".data [] (by decide) (by decide)⟩

/-- Supporting evidence for the cycle property: rendering B below A in
the cyclic vault terminates, and the re-entrant embed of A inside B is
emitted as a link (which the subsequent internal-link pass of the
default configuration, text mode, then flattens to its inner text). -/
theorem cyclic_vault_inner_render_terminates :
    renderCore vaultAB env0 DEFAULT_SETTINGS ⟨[], [Elem.embedSpan ['A'] ['i', 'a']]⟩
      ['/', 'v', '/', 'B', '.', 'm', 'd'] ['/', 'v'] ['d', 'o', 'c', 'x']
      [['/', 'v', '/', 'A', '.', 'm', 'd']]
    = .ok ([Elem.text ['i', 'a']], [(['t', 'i', 't', 'l', 'e'], ['B'])]) := by
  have he : expandEmbeds vaultAB env0 DEFAULT_SETTINGS ['/', 'v', '/', 'B', '.', 'm', 'd']
      ['/', 'v'] ['d', 'o', 'c', 'x'] [['/', 'v', '/', 'A', '.', 'm', 'd']]
      [Elem.embedSpan ['A'] ['i', 'a']]
      = [Elem.anchor (domResolve (['A'] ++ ".md".data)) ['i', 'a']] := by
    simp only [expandEmbeds]
    rw [if_neg (by decide), dif_pos (by decide)]
    simp [expandEmbeds]
  simp only [renderCore]
  rw [show processSrcSpans [Elem.embedSpan ['A'] ['i', 'a']]
      = [Elem.embedSpan ['A'] ['i', 'a']] from rfl]
  rw [he]
  rfl

/-- Supporting evidence for the cycle property: the top-level render of
A in the cyclic vault A embeds B embeds A terminates and produces the
expansion in which the re-entrant embed has been broken. -/
theorem cyclic_vault_render_terminates :
    renderCore vaultAB env0 DEFAULT_SETTINGS ⟨[], [Elem.embedSpan "B".data "ib".data]⟩
      "/v/A.md".data "/v".data "docx".data []
    = .ok ([Elem.text ['i', 'a']], [("title".data, "A".data)]) := by
  have he : expandEmbeds vaultAB env0 DEFAULT_SETTINGS "/v/A.md".data "/v".data "docx".data
      [] [Elem.embedSpan "B".data "ib".data]
      = [Elem.text ['i', 'a']] := by
    simp only [expandEmbeds]
    rw [if_neg (by decide), dif_neg (by decide)]
    rw [show lookupVault vaultAB (pjoin (dirname "/v/A.md".data) ("B".data ++ ".md".data))
        = some ⟨[], [Elem.embedSpan "A".data "ia".data]⟩ from by decide]
    rw [show pjoin (dirname ("/v/A.md".data : Str)) ("B".data ++ ".md".data)
        = (['/', 'v', '/', 'B', '.', 'm', 'd'] : Str) from by decide]
    rw [show ("A".data : Str) = ['A'] from rfl, show ("ia".data : Str) = ['i', 'a'] from rfl]
    simp [cyclic_vault_inner_render_terminates, expandEmbeds]
  simp only [renderCore]
  rw [show processSrcSpans [Elem.embedSpan "B".data "ib".data]
      = [Elem.embedSpan "B".data "ib".data] from rfl]
  rw [he]
  rfl

/- ///////////////////////////////////////////////////////////////////
Claim C5.
/////////////////////////////////////////////////////////////////// -/

/-- C5: an embed whose target cannot be read (the vault has no file at
the resolved path) or whose recursive render fails is caught: the embed
element is left in place unexpanded and the remaining elements are
still processed, so the failure never escapes to the parent export. -/
theorem c5_failing_embed_left_in_place
    (vault : Vault) (env : RenderEnv) (settings : PandocPluginSettings)
    (inputFile vaultBasePath outputFormat : Str) (parents : List Str)
    (src inner : Str) (rest : List Elem)
    (hsrc : src ≠ [])
    (hnc : pjoin (dirname inputFile) (src ++ ".md".data) ∉ parents)
    (hfail : lookupVault vault (pjoin (dirname inputFile) (src ++ ".md".data)) = none
        ∨ ∃ d, lookupVault vault (pjoin (dirname inputFile) (src ++ ".md".data)) = some d
            ∧ renderCore vault env settings d (pjoin (dirname inputFile) (src ++ ".md".data))
                vaultBasePath outputFormat (parents ++ [inputFile]) = .error ()) :
    expandEmbeds vault env settings inputFile vaultBasePath outputFormat parents
        (Elem.embedSpan src inner :: rest)
      = Elem.embedSpan src inner
          :: expandEmbeds vault env settings inputFile vaultBasePath outputFormat parents rest := by
  simp only [expandEmbeds]
  rw [if_neg hsrc, dif_neg hnc]
  rcases hfail with h | ⟨d, hd, he⟩
  · rw [h]
    simp
  · rw [hd]
    have hlit : (".md".data : Str) = ['.', 'm', 'd'] := rfl
    rw [hlit] at he
    simp [he]

theorem c5_failing_embed_left_in_place_witness :
    (("B".data : Str) ≠ [])
    ∧ (pjoin (dirname "/v/A.md".data) ("B".data ++ ".md".data) ∉ ([] : List Str))
    ∧ lookupVault [] (pjoin (dirname "/v/A.md".data) ("B".data ++ ".md".data)) = none
    ∧ expandEmbeds [] env0 DEFAULT_SETTINGS "/v/A.md".data "/v".data "docx".data []
        [Elem.embedSpan "B".data "x".data]
      = Elem.embedSpan "B".data "x".data
          :: expandEmbeds [] env0 DEFAULT_SETTINGS "/v/A.md".data "/v".data "docx".data [] [] :=
  ⟨by decide, by decide, by decide,
   c5_failing_embed_left_in_place [] env0 DEFAULT_SETTINGS "/v/A.md".data "/v".data "docx".data
     [] "B".data "x".data [] (by decide) (by decide) (Or.inl (by decide))⟩

/- ///////////////////////////////////////////////////////////////////
Claim C3.
/////////////////////////////////////////////////////////////////// -/

/-- C3 counterexample: the claim that metadata extraction never throws
and tolerates malformed header blocks fails on the code: a header block
holding an unclosed flow collection (a lone opening brace) makes
YAML.parse raise, and the error escapes getYAMLMetadata. -/
theorem c3_malformed_header_throws :
    getYAMLMetadata ("---\n\x7b\n---".data) = .error () := rfl

/-- C3 amended: a text whose trimmed form does not begin with the
three-hyphen marker yields empty metadata and never throws; but a
malformed header block is not tolerated: a block with no closing marker
makes YAML.parse return null rather than a mapping (the caller then
crashes writing the title), and an unclosed flow collection inside the
block raises a parse error that escapes the extractor. (A colon-less
plain-scalar block, by contrast, parses quietly to a scalar value:
extraction itself does not throw there.) -/
theorem c3_metadata_extraction_amended :
    (∀ s : Str, strStartsWith (trimStr s) "---".data = false →
        getYAMLMetadata s = .ok (.map []))
    ∧ getYAMLMetadata ("---abc".data) = .ok .null
    ∧ getYAMLMetadata ("---\n\x7b\n---".data) = .error ()
    ∧ getYAMLMetadata ("---\nx. no colon\n---".data)
        = .ok (.scalar "x. no colon".data) := by
  refine ⟨?_, rfl, rfl, rfl⟩
  intro s h
  unfold getYAMLMetadata
  rw [if_neg (by simp [h])]

theorem c3_metadata_extraction_amended_witness :
    strStartsWith (trimStr "hello world".data) "---".data = false
    ∧ getYAMLMetadata "hello world".data = .ok (.map []) :=
  ⟨by decide, c3_metadata_extraction_amended.1 "hello world".data (by decide)⟩

/- ///////////////////////////////////////////////////////////////////
Claim C4.
/////////////////////////////////////////////////////////////////// -/

theorem lookupMeta_append_of_none {m : Metadata} {k : Str} (h : lookupMeta m k = none)
    (v : Str) : lookupMeta (m ++ [(k, v)]) k = some v := by
  induction m with
  | nil => simp [lookupMeta]
  | cons p m ih =>
    unfold lookupMeta at h ⊢
    by_cases hp : p.1 = k
    · rw [List.find?_cons_of_pos _ (by simp [hp])] at h
      simp at h
    · rw [List.cons_append, List.find?_cons_of_neg _ (by simp [hp])]
      rw [List.find?_cons_of_neg _ (by simp [hp])] at h
      exact ih h

/-- C4: when the source has no header block, or the header parses to a
mapping without a title key, the title threaded into the metadata (and
from there into the wrapper and the converter invocation) is the file
base name of the input path, with directory and extension removed. -/
theorem c4_title_falls_back_to_basename
    (vault : Vault) (env : RenderEnv) (settings : PandocPluginSettings)
    (doc : MDoc) (inputFile vaultBasePath outputFormat : Str) (parents : List Str)
    (m : Metadata)
    (hm : getYAMLMetadata doc.src = .ok (.map m))
    (ht : lookupMeta m "title".data = none) :
    ∃ es,
      renderCore vault env settings doc inputFile vaultBasePath outputFormat parents
        = .ok (es, m ++ [("title".data, fileBaseName inputFile)])
      ∧ lookupMeta (m ++ [("title".data, fileBaseName inputFile)]) "title".data
          = some (fileBaseName inputFile)
      ∧ render vault env settings doc inputFile vaultBasePath outputFormat parents
          = .ok ((if parents = [] then
                    standaloneHTML settings env
                      (innerHTML es) (fileBaseName inputFile) vaultBasePath
                  else innerHTML es),
                 m ++ [("title".data, fileBaseName inputFile)]) := by
  have hset : setIfAbsent m "title".data (fileBaseName inputFile)
      = m ++ [("title".data, fileBaseName inputFile)] := by
    unfold setIfAbsent
    rw [ht]
  have hes : renderCore vault env settings doc inputFile vaultBasePath outputFormat parents
      = .ok (processSvgs settings outputFormat (mermaidCSS settings env)
          (removeFrontmatter settings
            (processImages outputFormat parents (dirname inputFile)
              (processAnchors settings outputFormat (dirname inputFile)
                (expandEmbeds vault env settings inputFile vaultBasePath outputFormat parents
                  (processSrcSpans doc.elems))))),
        m ++ [("title".data, fileBaseName inputFile)]) := by
    simp only [renderCore]
    rw [hm]
    simp [hset]
  set es := processSvgs settings outputFormat (mermaidCSS settings env)
      (removeFrontmatter settings
        (processImages outputFormat parents (dirname inputFile)
          (processAnchors settings outputFormat (dirname inputFile)
            (expandEmbeds vault env settings inputFile vaultBasePath outputFormat parents
              (processSrcSpans doc.elems))))) with hesdef
  have hl := lookupMeta_append_of_none ht (fileBaseName inputFile)
  refine ⟨es, hes, hl, ?_⟩
  unfold render
  rw [hes]
  by_cases hp : parents = [] <;> simp [hp, hl]

theorem c4_title_falls_back_to_basename_witness :
    (∃ es,
      renderCore [] env0 DEFAULT_SETTINGS ⟨[], []⟩ "/a/b/Report.md".data "/a".data
          "docx".data []
        = .ok (es, [] ++ [("title".data, fileBaseName "/a/b/Report.md".data)])
      ∧ lookupMeta ([] ++ [("title".data, fileBaseName "/a/b/Report.md".data)]) "title".data
          = some (fileBaseName "/a/b/Report.md".data)
      ∧ render [] env0 DEFAULT_SETTINGS ⟨[], []⟩ "/a/b/Report.md".data "/a".data
          "docx".data []
          = .ok ((if ([] : List Str) = [] then
                    standaloneHTML DEFAULT_SETTINGS env0
                      (innerHTML es) (fileBaseName "/a/b/Report.md".data) "/a".data
                  else innerHTML es),
                 [] ++ [("title".data, fileBaseName "/a/b/Report.md".data)]))
    ∧ fileBaseName "/a/b/Report.md".data = "Report".data :=
  ⟨c4_title_falls_back_to_basename [] env0 DEFAULT_SETTINGS ⟨[], []⟩ "/a/b/Report.md".data
     "/a".data "docx".data [] [] rfl rfl, by decide⟩

/- ///////////////////////////////////////////////////////////////////
Claim C6.
/////////////////////////////////////////////////////////////////// -/

theorem render_eq_of_core (vault : Vault) (env : RenderEnv)
    (settings : PandocPluginSettings) (doc : MDoc)
    (inputFile vaultBasePath outputFormat : Str) (parents : List Str)
    (es : List Elem) (m : Metadata)
    (hc : renderCore vault env settings doc inputFile vaultBasePath outputFormat parents
        = .ok (es, m)) :
    render vault env settings doc inputFile vaultBasePath outputFormat parents
      = .ok ((if parents = [] then
                standaloneHTML settings env (innerHTML es)
                  ((lookupMeta m "title".data).getD []) vaultBasePath
              else innerHTML es), m) := by
  unfold render
  rw [hc]
  by_cases hp : parents = [] <;> simp [hp]

/-- C6: for every render invocation, the returned HTML is the serialized
processed fragment when the ancestor-path list is non-empty (no
standalone wrapper, doctype, title or CSS added), and the standalone
wrapper is applied exactly when the ancestor-path list is empty. -/
theorem c6_wrapper_applied_only_at_top_level
    (vault : Vault) (env : RenderEnv) (settings : PandocPluginSettings)
    (doc : MDoc) (inputFile vaultBasePath outputFormat : Str) (parents : List Str)
    (htmlOut : Str) (m : Metadata)
    (hr : render vault env settings doc inputFile vaultBasePath outputFormat parents
        = .ok (htmlOut, m)) :
    ∃ es, renderCore vault env settings doc inputFile vaultBasePath outputFormat parents
        = .ok (es, m)
      ∧ (parents ≠ [] → htmlOut = innerHTML es)
      ∧ (parents = [] → htmlOut = standaloneHTML settings env (innerHTML es)
            ((lookupMeta m "title".data).getD []) vaultBasePath) := by
  cases hc : renderCore vault env settings doc inputFile vaultBasePath outputFormat parents with
  | error e =>
    unfold render at hr
    rw [hc] at hr
    exact absurd hr (by simp)
  | ok p =>
    obtain ⟨es, m2⟩ := p
    have heq := render_eq_of_core vault env settings doc inputFile vaultBasePath
      outputFormat parents es m2 hc
    rw [hr] at heq
    have hpair := Except.ok.inj heq
    have hm2 : m = m2 := congrArg Prod.snd hpair
    have hh : htmlOut = (if parents = [] then
              standaloneHTML settings env (innerHTML es)
                ((lookupMeta m2 "title".data).getD []) vaultBasePath
            else innerHTML es) := congrArg Prod.fst hpair
    subst hm2
    refine ⟨es, rfl, ?_, ?_⟩
    · intro hp
      rw [hh, if_neg hp]
    · intro hp
      rw [hh, if_pos hp]

theorem c6_wrapper_applied_only_at_top_level_witness :
    (∃ es, renderCore [] env0 DEFAULT_SETTINGS ⟨[], []⟩ "/v/B.md".data "/v".data "docx".data
        ["/v/A.md".data] = .ok (es, [("title".data, "B".data)])
      ∧ ((["/v/A.md".data] : List Str) ≠ [] → ([] : Str) = innerHTML es)
      ∧ ((["/v/A.md".data] : List Str) = [] → ([] : Str)
            = standaloneHTML DEFAULT_SETTINGS env0 (innerHTML es)
                ((lookupMeta [("title".data, "B".data)] "title".data).getD []) "/v".data)) :=
  c6_wrapper_applied_only_at_top_level [] env0 DEFAULT_SETTINGS ⟨[], []⟩ "/v/B.md".data
    "/v".data "docx".data ["/v/A.md".data] [] [("title".data, "B".data)]
    (by
      have hc : renderCore [] env0 DEFAULT_SETTINGS ⟨[], []⟩ "/v/B.md".data "/v".data
          "docx".data ["/v/A.md".data] = .ok ([], [("title".data, "B".data)]) := by
        simp only [renderCore]
        rw [show getYAMLMetadata ([] : Str) = .ok (YamlValue.map []) from rfl]
        simp [expandEmbeds, processSrcSpans, processAnchors, processImages,
              removeFrontmatter, processSvgs, setIfAbsent, lookupMeta]
        rfl
      have := render_eq_of_core [] env0 DEFAULT_SETTINGS ⟨[], []⟩ "/v/B.md".data "/v".data
        "docx".data ["/v/A.md".data] [] [("title".data, "B".data)] hc
      simpa using this)

/- ///////////////////////////////////////////////////////////////////
Claim C7.
/////////////////////////////////////////////////////////////////// -/

/-- C7: every svg diagram in the fragment is carried by the diagram loop
to an element whose internal stylesheet ends with the assembled
CSS-variable string mermaidCSS, for every configuration (the settings
are arbitrary, including app-CSS injection set to none) and for every
output format (for non-html output the raster replacement is produced
from that same styled snapshot). -/
theorem c7_diagram_css_always_present
    (settings : PandocPluginSettings) (env : RenderEnv) (outputFormat : Str)
    (elems : List Elem) (style : Option Str) (body : Str)
    (he : Elem.svg style body ∈ elems) :
    processSvgElem settings outputFormat (mermaidCSS settings env) (Elem.svg style body)
        ∈ processSvgs settings outputFormat (mermaidCSS settings env) elems
    ∧ elemStyle (processSvgElem settings outputFormat (mermaidCSS settings env)
        (Elem.svg style body))
        = some ((style.getD []) ++ mermaidCSS settings env) := by
  constructor
  · exact List.mem_map_of_mem _ he
  · unfold processSvgElem
    by_cases hf : outputFormat = "html".data
    · simp [hf, elemStyle]
    · simp [hf, elemStyle]

theorem c7_diagram_css_always_present_witness :
    (Elem.svg none "diagram".data ∈ [Elem.svg none "diagram".data])
    ∧ (processSvgElem settingsNoCSS "pdf".data (mermaidCSS settingsNoCSS env0)
         (Elem.svg none "diagram".data)
        ∈ processSvgs settingsNoCSS "pdf".data (mermaidCSS settingsNoCSS env0)
            [Elem.svg none "diagram".data]
      ∧ elemStyle (processSvgElem settingsNoCSS "pdf".data (mermaidCSS settingsNoCSS env0)
          (Elem.svg none "diagram".data))
          = some (((none : Option Str).getD []) ++ mermaidCSS settingsNoCSS env0)) :=
  ⟨by decide,
   c7_diagram_css_always_present settingsNoCSS env0 "pdf".data
     [Elem.svg none "diagram".data] none "diagram".data (by decide)⟩

/- ///////////////////////////////////////////////////////////////////
Claim C8.
/////////////////////////////////////////////////////////////////// -/

/-- C8 counterexample: a zero-byte destination file that exists as a
regular file at stream end makes the promise resolve (reported as
success), contradicting the claim that a zero-byte destination file is
never reported as silent success: the end handler checks only existence
and file-ness, never size. -/
theorem c8_zero_byte_destination_resolves :
    pandocOnEnd false (some ⟨true, 0⟩) "out".data "warnings".data "pandoc -o x".data
      = SettleResult.resolved "out".data "warnings".data "pandoc -o x".data := rfl

/-- C8 amended: for a destination-file output, the settlement computed
at the end of the output stream resolves exactly when the destination
exists as a regular file at that moment, regardless of its size (a
zero-byte regular file resolves as success); otherwise it rejects with
the accumulated standard-error text. -/
theorem c8_destination_gate_amended
    (destStat : Option FileStat) (result error command : Str) :
    (pandocOnEnd false destStat result error command = .resolved result error command
      ↔ ∃ st, destStat = some st ∧ st.isFile = true)
    ∧ (pandocOnEnd false destStat result error command ≠ .resolved result error command
      → pandocOnEnd false destStat result error command = .rejectedError error) := by
  unfold pandocOnEnd
  cases destStat with
  | none => simp
  | some st =>
    by_cases hf : st.isFile = true
    · simp [hf]
    · simp [hf]

theorem c8_destination_gate_amended_witness :
    (pandocOnEnd false none "".data "err text".data "cmd".data
        = SettleResult.resolved "".data "err text".data "cmd".data
      ↔ ∃ st, (none : Option FileStat) = some st ∧ st.isFile = true)
    ∧ (pandocOnEnd false none "".data "err text".data "cmd".data
        ≠ SettleResult.resolved "".data "err text".data "cmd".data
      → pandocOnEnd false none "".data "err text".data "cmd".data
        = SettleResult.rejectedError "err text".data) :=
  c8_destination_gate_amended none "".data "err text".data "cmd".data

/- ///////////////////////////////////////////////////////////////////
Claim C9.
/////////////////////////////////////////////////////////////////// -/

/-- C9 counterexample: for html output (even at the top level) the image
loop does not run, so an image src keeping the internal scheme is left
untouched rather than rewritten to an absolute filesystem path. -/
theorem c9_html_images_not_rewritten :
    processImages "html".data [] "/v".data [Elem.image (appPrefix ++ "x.png".data)]
      = [Elem.image (appPrefix ++ "x.png".data)]
    ∧ strStartsWith (appPrefix ++ "x.png".data) appPrefix = true := ⟨rfl, by decide⟩

/-- C9 amended: internal-scheme image srcs are rewritten to the absolute
joined path only for non-html output at the top level (an empty
ancestor list); for html output or inside an embedded render the image
loop leaves every element untouched; and the link stripping and text
modes never apply to image elements (the anchor loop maps an image to
itself for every settings value). -/
theorem c9_image_rewrite_guarded
    (settings : PandocPluginSettings) (outputFormat dir rel src : Str)
    (parents : List Str) (elems : List Elem) :
    (outputFormat ≠ "html".data →
        processImages outputFormat [] dir [Elem.image (appPrefix ++ rel)]
          = [Elem.image (pjoin dir rel)])
    ∧ (outputFormat = "html".data ∨ parents ≠ [] →
        processImages outputFormat parents dir elems = elems)
    ∧ processAnchorElem settings outputFormat dir (Elem.image src)
        = some (Elem.image src) := by
  refine ⟨?_, ?_, rfl⟩
  · intro hf
    unfold processImages
    rw [if_pos ⟨hf, rfl⟩]
    simp [strStartsWith_append, List.drop_left]
  · intro hor
    unfold processImages
    rw [if_neg (by
      rintro ⟨h1, h2⟩
      rcases hor with h3 | h3
      · exact h1 h3
      · exact h3 h2)]

theorem c9_image_rewrite_guarded_witness :
    (("docx".data : Str) ≠ "html".data
      → processImages "docx".data [] "/v".data [Elem.image (appPrefix ++ "img/x.png".data)]
          = [Elem.image (pjoin "/v".data "img/x.png".data)])
    ∧ (("docx".data : Str) = "html".data ∨ (["/v/A.md".data] : List Str) ≠ []
      → processImages "docx".data ["/v/A.md".data] "/v".data
            [Elem.image (appPrefix ++ "img/x.png".data)]
          = [Elem.image (appPrefix ++ "img/x.png".data)])
    ∧ processAnchorElem DEFAULT_SETTINGS "docx".data "/v".data
          (Elem.image "app://obsidian.md/pic.png".data)
        = some (Elem.image "app://obsidian.md/pic.png".data) :=
  c9_image_rewrite_guarded DEFAULT_SETTINGS "docx".data "/v".data "img/x.png".data
    "app://obsidian.md/pic.png".data ["/v/A.md".data]
    [Elem.image (appPrefix ++ "img/x.png".data)]

/- ///////////////////////////////////////////////////////////////////
Claim C10.
/////////////////////////////////////////////////////////////////// -/

/-- C10: with no custom CSS file configured, getCustomCSS returns
undefined rather than the empty string, and the JavaScript string
append in getDesiredCSS therefore ends the assembled CSS blob with the
literal text undefined. -/
theorem c10_undefined_appended_to_css
    (settings : PandocPluginSettings) (env : RenderEnv) (html vaultBasePath : Str)
    (hc : settings.customCSSFile = none) :
    getCustomCSS settings env vaultBasePath = none
    ∧ ∃ pre, getDesiredCSS settings env html vaultBasePath = pre ++ "undefined".data := by
  have h1 : getCustomCSS settings env vaultBasePath = none := by
    unfold getCustomCSS
    rw [hc]
  refine ⟨h1, ?_⟩
  simp only [getDesiredCSS, h1, jsAppendOpt]
  exact ⟨_, rfl⟩

theorem c10_undefined_appended_to_css_witness :
    getCustomCSS DEFAULT_SETTINGS env0 "/v".data = none
    ∧ ∃ pre, getDesiredCSS DEFAULT_SETTINGS env0 "<p>x</p>".data "/v".data
        = pre ++ "undefined".data :=
  c10_undefined_appended_to_css DEFAULT_SETTINGS env0 "<p>x</p>".data "/v".data rfl

end ObsidianPandoc
